import Mathlib

/-!
Verification of the project data pipeline and small utilities of the
Caleb.me repository: the lazy project loader, the buffering aggregator,
the two presentation sort policies, the field cleaner, and the string
and URL helpers.  Every definition is a shallow embedding of the
corresponding TypeScript source; theorems settle the specified claims.
-/

namespace CalebMe

/-- The Project record of src/data/projects/index.ts: optional fields are
Options, the numeric fields are naturals (the fixture only holds
non-negative literals). -/
structure Project where
  name : String
  url : String
  archived : Bool
  description : Option String
  homepageUrl : Option String
  stars : Nat
  downloads : Nat
  language : Option String
  githubUrl : String
deriving DecidableEq

/-! ### String comparison

The comparator of Policy A calls localeCompare on project names.  The
embedding models it as code-point lexicographic comparison returning
-1, 0 or 1 (the spec reads the call as case-sensitive alphabetical
comparison, and only the sign of the result is consumed). -/

/-- Lexicographic three-way comparison of character lists by code point. -/
def cmpStr : List Char → List Char → Int
  | [], [] => 0
  | [], _ :: _ => -1
  | _ :: _, [] => 1
  | a :: as, b :: bs => if a < b then -1 else if b < a then 1 else cmpStr as bs

/-- Model of String.prototype.localeCompare restricted to its sign:
code-point lexicographic comparison of the two strings. -/
def localeCompare (a b : String) : Int :=
  cmpStr a.data b.data

theorem cmpStr_le_total (a b : List Char) : cmpStr a b ≤ 0 ∨ cmpStr b a ≤ 0 := by
  induction a generalizing b with
  | nil => cases b <;> simp [cmpStr]
  | cons x as ih =>
    cases b with
    | nil => simp [cmpStr]
    | cons y bs =>
      rcases lt_trichotomy x y with h | h | h
      · left; simp [cmpStr, h]
      · subst h
        rcases ih bs with h' | h'
        · left; simpa [cmpStr] using h'
        · right; simpa [cmpStr] using h'
      · right; simp [cmpStr, h]

theorem cmpStr_le_trans {a b c : List Char}
    (h1 : cmpStr a b ≤ 0) (h2 : cmpStr b c ≤ 0) : cmpStr a c ≤ 0 := by
  induction a generalizing b c with
  | nil => cases c <;> simp [cmpStr]
  | cons x as ih =>
    cases b with
    | nil => simp [cmpStr] at h1
    | cons y bs =>
      cases c with
      | nil => simp [cmpStr] at h2
      | cons z cs =>
        rcases lt_trichotomy x y with hxy | hxy | hxy
        · rcases lt_trichotomy y z with hyz | hyz | hyz
          · have hxz : x < z := lt_trans hxy hyz
            simp [cmpStr, hxz]
          · subst hyz; simp [cmpStr, hxy]
          · simp [cmpStr, hyz, asymm hyz] at h2
        · subst hxy
          rcases lt_trichotomy x z with hxz | hxz | hxz
          · simp [cmpStr, hxz]
          · subst hxz
            simp only [cmpStr, lt_irrefl, if_false] at h1 h2 ⊢
            exact ih h1 h2
          · simp [cmpStr, hxz, asymm hxz] at h2
        · simp [cmpStr, hxy, asymm hxy] at h1

/-! ### The two sort policies

The pages sort the buffered list with Array.prototype.sort, which the
ECMAScript standard requires to be a stable sort consistent with the
comparator.  The embedding realizes that contract as stable insertion
sort: an element is placed before another exactly when the comparator
is non-positive on the pair. -/

/-- The Policy A comparator of src/pages/projects/index.tsx: projects
with distinct archived flags compare by the flag (non-archived first),
otherwise by name. -/
def cmpPolicyA (a b : Project) : Int :=
  if a.archived ≠ b.archived then (if a.archived then 1 else -1)
  else localeCompare a.name b.name

/-- The Policy B comparator of the ranked projects page variant:
descending star count. -/
def cmpPolicyB (a b : Project) : Int :=
  (b.stars : Int) - (a.stars : Int)

/-- The order realized by a stable sort under the Policy A comparator. -/
def policyARel (a b : Project) : Prop := cmpPolicyA a b ≤ 0

/-- The order realized by a stable sort under the Policy B comparator. -/
def policyBRel (a b : Project) : Prop := cmpPolicyB a b ≤ 0

instance (a b : Project) : Decidable (policyARel a b) := by
  unfold policyARel; exact inferInstance

instance (a b : Project) : Decidable (policyBRel a b) := by
  unfold policyBRel; exact inferInstance

instance : IsTotal Project policyARel where
  total a b := by
    unfold policyARel cmpPolicyA
    by_cases h : a.archived = b.archived
    · simp only [h, ne_eq, not_true_eq_false, if_false]
      exact cmpStr_le_total a.name.data b.name.data
    · have h' : ¬ b.archived = a.archived := fun he => h he.symm
      cases ha : a.archived <;> simp_all

instance : IsTrans Project policyARel where
  trans a b c h1 h2 := by
    unfold policyARel cmpPolicyA at h1 h2 ⊢
    cases ha : a.archived <;> cases hb : b.archived <;> cases hc : c.archived <;>
      simp_all [localeCompare]
    · exact cmpStr_le_trans h1 h2
    · exact cmpStr_le_trans h1 h2

instance : IsTotal Project policyBRel where
  total a b := by unfold policyBRel cmpPolicyB; omega

instance : IsTrans Project policyBRel where
  trans a b c h1 h2 := by unfold policyBRel cmpPolicyB at h1 h2 ⊢; omega

/-- The Policy A sort of src/pages/projects/index.tsx line 240: the
stable ECMAScript sort under cmpPolicyA. -/
def sortPolicyA (l : List Project) : List Project :=
  l.insertionSort policyARel

/-- The Policy B sort of the ranked page variant: the stable
ECMAScript sort under cmpPolicyB. -/
def sortPolicyB (l : List Project) : List Project :=
  l.insertionSort policyBRel

/-- The Policy A target order as the spec words it: a non-archived
record precedes an archived one, and records with the same archived
flag are in name order. -/
def policyASpecLe (a b : Project) : Prop :=
  (a.archived = false ∧ b.archived = true) ∨
    (a.archived = b.archived ∧ localeCompare a.name b.name ≤ 0)

instance (a b : Project) : Decidable (policyASpecLe a b) := by
  unfold policyASpecLe; exact inferInstance

theorem policyASpecLe_iff (a b : Project) : policyASpecLe a b ↔ policyARel a b := by
  unfold policyASpecLe policyARel cmpPolicyA
  cases ha : a.archived <;> cases hb : b.archived <;> simp_all

/-! ### The Loader as a lazy sequence

src/data/projects/index.ts exposes the fixture list through an async
generator: for each fixture record it first awaits a zero-duration
timer (the cooperative suspension seam) and then yields the record.
The trace of one invocation is embedded as an inductive sequence of
suspension and yield events; being a pure function of the fixture
list, every invocation denotes the same fresh full trace. -/

/-- One finite trace of an asynchronous generator: it ends, suspends
cooperatively, or yields an item. -/
inductive AsyncGen (α : Type) where
  | done : AsyncGen α
  | susp : AsyncGen α → AsyncGen α
  | yield : α → AsyncGen α → AsyncGen α
deriving DecidableEq

/-- The async generator of src/data/projects/index.ts lines 15 to 21,
parameterized by the fixture list it iterates over: before each record
it awaits setTimeout 0 (a suspension event) and then yields the
record. -/
def loadProjects : List Project → AsyncGen Project
  | [] => .done
  | p :: rest => .susp (.yield p (loadProjects rest))

/-- Modelled from the spec: bufferIterable is imported from the
utils/async module, whose implementation is not part of the snapshot.
Per section 4.3 it drains the full lazy sequence into an ordered,
insertion-order-preserving list. -/
def bufferIterable {α : Type} : AsyncGen α → List α
  | .done => []
  | .susp k => bufferIterable k
  | .yield a k => a :: bufferIterable k

/-- Holds when a trace is an alternation of suspension and yield
events ending in done: every yielded item is immediately preceded by
exactly one cooperative suspension point. -/
def suspBeforeEachItem {α : Type} : AsyncGen α → Bool
  | .done => true
  | .susp (.yield _ k) => suspBeforeEachItem k
  | _ => false

theorem bufferIterable_loadProjects (fakes : List Project) :
    bufferIterable (loadProjects fakes) = fakes := by
  induction fakes with
  | nil => rfl
  | cons p rest ih => simp [loadProjects, bufferIterable, ih]

theorem suspBeforeEachItem_loadProjects (fakes : List Project) :
    suspBeforeEachItem (loadProjects fakes) = true := by
  induction fakes with
  | nil => rfl
  | cons p rest ih => simpa [loadProjects, suspBeforeEachItem] using ih

/-! ### deleteUndefined

The cleaner runs over the buffered records before they cross the page
hydration boundary.  Its implementation lives in the utils/object
module, which is absent from the snapshot; the record shape it
operates on is untyped JSON-like data, embedded here as association
lists of string keys and values, with an explicit marker for a key
bound to an absent value. -/

/-- A JavaScript value as seen by the serialization boundary: a
string, a number, a boolean, or the absent-value marker. -/
inductive JsValue where
  | vStr : String → JsValue
  | vNat : Nat → JsValue
  | vBool : Bool → JsValue
  | undef : JsValue
deriving DecidableEq

/-- A record is an ordered association list of keys and values. -/
abbrev JsRecord : Type := List (String × JsValue)

/-- Modelled from the spec: the per-record action of deleteUndefined
(utils/object, implementation absent from the snapshot).  Per section
4.3, for every key whose value is absent it removes that key entirely
and keeps every other binding; the in-place mutation is embedded as a
pure function per the reframing note of section 9. -/
def deleteUndefinedRecord (rec : JsRecord) : JsRecord :=
  rec.filter (fun kv => kv.2 ≠ JsValue.undef)

/-- Modelled from the spec: deleteUndefined applied to a list of
records cleans each record. -/
def deleteUndefined (l : List JsRecord) : List JsRecord :=
  l.map deleteUndefinedRecord

/-! ### formatUrlWithQuery

The helper splits the url with String.prototype.split with limit 2,
parses the second piece with URLSearchParams, sets every entry of the
params object, and reassembles the url.  URLSearchParams is a platform
API; the embedding covers its behaviour on the characters actually at
play here (it leaves out percent-encoding and plus-for-space decoding,
which are the identity on the strings this site passes through it). -/

/-- Model of url.split(sep, 2): the first piece is the text before the
first separator, the second the text strictly between the first and
second separator.  Everything after a second separator is discarded by
the limit, and a url without a separator gets an empty second piece
(URLSearchParams treats the resulting undefined like an empty
string). -/
def splitFirst2 (sep : Char) (l : List Char) : List Char × List Char :=
  let base := l.takeWhile (fun c => c ≠ sep)
  match l.dropWhile (fun c => c ≠ sep) with
  | [] => (base, [])
  | _ :: rest => (base, rest.takeWhile (fun c => c ≠ sep))

/-- Split a character list on every occurrence of the separator,
keeping empty pieces. -/
def splitAll (sep : Char) : List Char → List (List Char)
  | [] => [[]]
  | c :: cs =>
    if c = sep then [] :: splitAll sep cs
    else
      match splitAll sep cs with
      | [] => [[c]]
      | p :: ps => (c :: p) :: ps

/-- Model of the URLSearchParams constructor on a query string: split
on the ampersand, drop empty pieces, and split each piece on its first
equals sign into a key and a value (a piece without one is a key with
an empty value). -/
def parseQuery (s : List Char) : List (List Char × List Char) :=
  ((splitAll '&' s).filter (fun p => p ≠ [])).map
    (fun seg => (seg.takeWhile (fun c => c ≠ '='),
                 (seg.dropWhile (fun c => c ≠ '=')).drop 1))

/-- Remove every pair whose key is the given one. -/
def removeKey (k : List Char) : List (List Char × List Char) → List (List Char × List Char)
  | [] => []
  | p :: ps => if p.1 = k then removeKey k ps else p :: removeKey k ps

/-- Model of URLSearchParams.prototype.set: give the first pair with
the key the new value and drop the other pairs with that key, or
append the pair when the key is absent. -/
def spSet (k v : List Char) : List (List Char × List Char) → List (List Char × List Char)
  | [] => [(k, v)]
  | p :: ps => if p.1 = k then (k, v) :: removeKey k ps else p :: spSet k v ps

/-- The loop of formatUrlWithQuery: set every entry of the params
object, in entry order. -/
def setAll (params : List (List Char × List Char))
    (ps : List (List Char × List Char)) : List (List Char × List Char) :=
  params.foldl (fun acc kv => spSet kv.1 kv.2 acc) ps

/-- Model of URLSearchParams.prototype.toString on the covered
character set: the pairs joined as key=value with ampersands. -/
def serializeQuery (ps : List (List Char × List Char)) : List Char :=
  List.intercalate ['&'] (ps.map (fun kv => kv.1 ++ '=' :: kv.2))

/-- The final query pair list of formatUrlWithQuery: the parsed
original query with every params entry set over it. -/
def queryPairsAfter (url : String) (params : List (String × String)) :
    List (List Char × List Char) :=
  setAll (params.map (fun kv => (kv.1.data, kv.2.data)))
    (parseQuery (splitFirst2 '?' url.data).2)

/-- formatUrlWithQuery of the shared utils module: split the url on
the first question mark, set each params entry in the query, and
return base, question mark and serialized query. -/
def formatUrlWithQuery (url : String) (params : List (String × String)) : String :=
  String.mk ((splitFirst2 '?' url.data).1 ++ '?' :: serializeQuery (queryPairsAfter url params))

/-- The value bound to a key in a pair list: the value of the first
pair carrying the key, as URLSearchParams.prototype.get reads it. -/
def lookupKey (k : List Char) : List (List Char × List Char) → Option (List Char)
  | [] => none
  | p :: ps => if p.1 = k then some p.2 else lookupKey k ps

theorem lookupKey_removeKey {k k' : List Char} (h : k' ≠ k)
    (ps : List (List Char × List Char)) :
    lookupKey k' (removeKey k ps) = lookupKey k' ps := by
  induction ps with
  | nil => rfl
  | cons p ps ih =>
    by_cases hp : p.1 = k
    · have : p.1 ≠ k' := by rw [hp]; exact fun he => h he.symm
      simp [removeKey, lookupKey, hp, this, ih, h, Ne.symm h]
    · by_cases hp' : p.1 = k' <;> simp [removeKey, lookupKey, hp, hp', ih, h, Ne.symm h]

theorem lookupKey_spSet_self (k v : List Char) (ps : List (List Char × List Char)) :
    lookupKey k (spSet k v ps) = some v := by
  induction ps with
  | nil => simp [spSet, lookupKey]
  | cons p ps ih =>
    by_cases hp : p.1 = k <;> simp [spSet, lookupKey, hp, ih]

theorem lookupKey_spSet_ne {k k' : List Char} (h : k' ≠ k) (v : List Char)
    (ps : List (List Char × List Char)) :
    lookupKey k' (spSet k v ps) = lookupKey k' ps := by
  induction ps with
  | nil =>
    simp [spSet, lookupKey, Ne.symm h]
  | cons p ps ih =>
    by_cases hp : p.1 = k
    · have : p.1 ≠ k' := by rw [hp]; exact fun he => h he.symm
      simp [spSet, lookupKey, hp, this, lookupKey_removeKey h, h, Ne.symm h]
    · by_cases hp' : p.1 = k' <;> simp [spSet, lookupKey, hp, hp', ih, h, Ne.symm h]

theorem lookupKey_setAll_not_mem {k : List Char}
    (params : List (List Char × List Char))
    (h : ∀ kv ∈ params, kv.1 ≠ k) (ps : List (List Char × List Char)) :
    lookupKey k (setAll params ps) = lookupKey k ps := by
  induction params generalizing ps with
  | nil => rfl
  | cons kv params ih =>
    have hk : kv.1 ≠ k := h kv (List.mem_cons_self kv params)
    have htail : ∀ p ∈ params, p.1 ≠ k := fun p hp => h p (List.mem_cons_of_mem kv hp)
    calc lookupKey k (setAll (kv :: params) ps)
        = lookupKey k (setAll params (spSet kv.1 kv.2 ps)) := rfl
      _ = lookupKey k (spSet kv.1 kv.2 ps) := ih htail _
      _ = lookupKey k ps := lookupKey_spSet_ne (fun he => hk he.symm) _ _

theorem lookupKey_setAll_mem {k v : List Char}
    (params : List (List Char × List Char))
    (hnd : (params.map Prod.fst).Nodup) (hmem : (k, v) ∈ params)
    (ps : List (List Char × List Char)) :
    lookupKey k (setAll params ps) = some v := by
  induction params generalizing ps with
  | nil => cases hmem
  | cons kv params ih =>
    rcases List.mem_cons.mp hmem with he | hm
    · have hk : kv.1 = k := by rw [← he]
      have hv : kv.2 = v := by rw [← he]
      have hnotin : ∀ p ∈ params, p.1 ≠ k := by
        intro p hp hpk
        have : kv.1 ∈ params.map Prod.fst := by
          rw [hk, ← hpk]; exact List.mem_map_of_mem Prod.fst hp
        exact (List.nodup_cons.mp (by simpa using hnd)).1 this
      calc lookupKey k (setAll (kv :: params) ps)
          = lookupKey k (setAll params (spSet kv.1 kv.2 ps)) := rfl
        _ = lookupKey k (spSet kv.1 kv.2 ps) := lookupKey_setAll_not_mem params hnotin _
        _ = some v := by rw [hk, hv]; exact lookupKey_spSet_self k v ps
    · exact ih (List.Nodup.of_cons (by simpa using hnd)) hm _

/-! ### slugify

slugify lowercases the text, replaces with the global regex every
maximal run of characters outside the class of lowercase letters and
digits by one hyphen, and strips one leading and one trailing hyphen.
The embedding works on code points; the lowercasing models the ASCII
case mapping (the special Unicode casings fall outside the class
either way, except for exotica such as the Kelvin sign, which the
embedding does not cover). -/

/-- ASCII lowercasing: map the code points of A to Z onto a to z and
leave every other character unchanged. -/
def asciiToLower (c : Char) : Char :=
  if 65 ≤ c.toNat ∧ c.toNat ≤ 90 then Char.ofNat (c.toNat + 32) else c

/-- Membership in the regex class of lowercase ASCII letters and
digits. -/
def isSlugChar (c : Char) : Bool :=
  decide ((97 ≤ c.toNat ∧ c.toNat ≤ 122) ∨ (48 ≤ c.toNat ∧ c.toNat ≤ 57))

/-- The global replacement of the slugify regex as a left-to-right
scan: a character in the class is kept, the first character of a run
outside the class emits one hyphen, and the rest of the run is
swallowed (the flag records being inside such a run). -/
def collapseRuns : Bool → List Char → List Char
  | _, [] => []
  | inRun, c :: cs =>
    if isSlugChar c then c :: collapseRuns false cs
    else if inRun then collapseRuns true cs
    else '-' :: collapseRuns true cs

/-- Strip one leading hyphen, as the anchored half of the trimming
regex does. -/
def dropLeadingHyphen : List Char → List Char
  | [] => []
  | c :: t => if c = '-' then t else c :: t

/-- Strip one trailing hyphen, as the end-anchored half of the
trimming regex does. -/
def dropTrailingHyphen (l : List Char) : List Char :=
  if l.getLast? = some '-' then l.dropLast else l

/-- The trimming regex of slugify: one hyphen can match at the start
and one at the end. -/
def trimEdgeHyphens (l : List Char) : List Char :=
  dropTrailingHyphen (dropLeadingHyphen l)

/-- slugify of the shared utils module: lowercase, collapse runs
outside the class to single hyphens, trim the edges. -/
def slugify (text : String) : String :=
  String.mk (trimEdgeHyphens (collapseRuns false (text.data.map asciiToLower)))

theorem dropWhileLengthLe (p : Char → Bool) (l : List Char) :
    (l.dropWhile p).length ≤ l.length := by
  induction l with
  | nil => simp
  | cons c cs ih =>
    by_cases h : p c
    · simp only [List.dropWhile, h, List.length_cons]
      exact Nat.le_succ_of_le ih
    · simp [List.dropWhile, h]

/-- The replacement stage worded as the spec describes it: a kept
character stays, and a whole maximal run outside the class is consumed
at once and becomes one hyphen. -/
def specReplaceRuns : List Char → List Char
  | [] => []
  | c :: cs =>
    if isSlugChar c then c :: specReplaceRuns cs
    else '-' :: specReplaceRuns (cs.dropWhile (fun d => !isSlugChar d))
termination_by l => l.length
decreasing_by
  all_goals simp only [List.length_cons]
  all_goals first
    | omega
    | exact Nat.lt_succ_of_le (dropWhileLengthLe _ _)

theorem collapseRuns_true_eq (cs : List Char) :
    collapseRuns true cs = collapseRuns false (cs.dropWhile (fun d => !isSlugChar d)) := by
  induction cs with
  | nil => rfl
  | cons d ds ih =>
    by_cases h : isSlugChar d
    · simp [collapseRuns, List.dropWhile, h]
    · simpa [collapseRuns, List.dropWhile, h] using ih

theorem collapseRuns_eq_spec_aux :
    ∀ (n : Nat) (l : List Char), l.length ≤ n → collapseRuns false l = specReplaceRuns l := by
  intro n
  induction n with
  | zero =>
    intro l h
    have : l = [] := List.length_eq_zero.mp (Nat.le_zero.mp h)
    subst this
    simp [collapseRuns, specReplaceRuns]
  | succ n ih =>
    intro l h
    cases l with
    | nil => simp [collapseRuns, specReplaceRuns]
    | cons c cs =>
      simp only [List.length_cons] at h
      by_cases hc : isSlugChar c
      · simp only [collapseRuns, specReplaceRuns, hc, if_true]
        exact congrArg _ (ih cs (by omega))
      · simp only [collapseRuns, specReplaceRuns, hc, if_false, Bool.false_eq_true]
        rw [collapseRuns_true_eq]
        exact congrArg _
          (ih _ (le_trans (dropWhileLengthLe (fun d => !isSlugChar d) cs) (by omega)))

theorem collapseRuns_eq_spec (l : List Char) :
    collapseRuns false l = specReplaceRuns l :=
  collapseRuns_eq_spec_aux l.length l le_rfl

/-- All characters are in the slug class or are the hyphen. -/
def slugCharsOk (l : List Char) : Bool :=
  l.all (fun c => isSlugChar c || c == '-')

/-- No two adjacent characters are both hyphens. -/
def noAdjacentHyphens : List Char → Bool
  | [] => true
  | [_] => true
  | a :: b :: t => (!(a == '-' && b == '-')) && noAdjacentHyphens (b :: t)

/-- The first character, when there is one, is not a hyphen. -/
def headNotHyphen : List Char → Bool
  | [] => true
  | c :: _ => c != '-'

/-- The last character, when there is one, is not a hyphen. -/
def lastNotHyphen (l : List Char) : Bool :=
  match l.getLast? with
  | some c => c != '-'
  | none => true

theorem isSlugChar_ne_hyphen {c : Char} (h : isSlugChar c = true) : c ≠ '-' := by
  intro he; subst he; simp [isSlugChar] at h

theorem noAdjacentHyphens_cons_cons (a b : Char) (t : List Char) :
    noAdjacentHyphens (a :: b :: t)
      = ((!(a == '-' && b == '-')) && noAdjacentHyphens (b :: t)) := rfl

theorem noAdjacentHyphens_tail {a : Char} {l : List Char}
    (h : noAdjacentHyphens (a :: l) = true) : noAdjacentHyphens l = true := by
  cases l with
  | nil => rfl
  | cons b t => exact (Bool.and_eq_true_iff.mp h).2

theorem noAdjacentHyphens_cons {a : Char} {l : List Char}
    (hl : noAdjacentHyphens l = true)
    (h : a ≠ '-' ∨ headNotHyphen l = true) : noAdjacentHyphens (a :: l) = true := by
  cases l with
  | nil => rfl
  | cons b t =>
    simp only [noAdjacentHyphens, Bool.and_eq_true_iff, Bool.not_eq_true']
    refine ⟨?_, hl⟩
    rcases h with h | h
    · simp [h]
    · simp only [headNotHyphen, bne_iff_ne, ne_eq] at h
      simp [h]

theorem collapseRuns_invariants (l : List Char) :
    noAdjacentHyphens (collapseRuns false l) = true
    ∧ noAdjacentHyphens (collapseRuns true l) = true
    ∧ headNotHyphen (collapseRuns true l) = true := by
  induction l with
  | nil => exact ⟨rfl, rfl, rfl⟩
  | cons c cs ih =>
    obtain ⟨ihf, iht, ihh⟩ := ih
    by_cases hc : isSlugChar c
    · have hcons : noAdjacentHyphens (c :: collapseRuns false cs) = true :=
        noAdjacentHyphens_cons ihf (Or.inl (isSlugChar_ne_hyphen hc))
      refine ⟨?_, ?_, ?_⟩ <;> simp only [collapseRuns, hc, if_true]
      · exact hcons
      · exact hcons
      · simp [headNotHyphen, isSlugChar_ne_hyphen hc]
    · refine ⟨?_, ?_, ?_⟩ <;> simp only [collapseRuns, hc, if_false, Bool.false_eq_true]
      · exact noAdjacentHyphens_cons iht (Or.inr ihh)
      · exact iht
      · exact ihh

theorem collapseRuns_charsOk (b : Bool) (l : List Char) :
    slugCharsOk (collapseRuns b l) = true := by
  induction l generalizing b with
  | nil => rfl
  | cons c cs ih =>
    by_cases hc : isSlugChar c
    · simpa [collapseRuns, hc, slugCharsOk] using ih false
    · cases b
      · simpa [collapseRuns, hc, slugCharsOk] using ih true
      · simpa [collapseRuns, hc, slugCharsOk] using ih true

theorem slugCharsOk_sublist {l₁ l₂ : List Char} (hs : List.Sublist l₁ l₂)
    (h : slugCharsOk l₂ = true) : slugCharsOk l₁ = true := by
  unfold slugCharsOk at h ⊢
  simp only [List.all_eq_true] at h ⊢
  exact fun a ha => h a (hs.mem ha)

theorem headNotHyphen_dropLeadingHyphen {l : List Char}
    (h : noAdjacentHyphens l = true) : headNotHyphen (dropLeadingHyphen l) = true := by
  cases l with
  | nil => rfl
  | cons c t =>
    by_cases hc : c = '-'
    · simp only [dropLeadingHyphen, hc, if_true]
      cases t with
      | nil => rfl
      | cons d t' =>
        subst hc
        rw [noAdjacentHyphens_cons_cons] at h
        have h1 := (Bool.and_eq_true_iff.mp h).1
        have hd : d ≠ '-' := by simpa using h1
        simp [headNotHyphen, hd]
    · simp [dropLeadingHyphen, hc, headNotHyphen]

theorem noAdjacentHyphens_dropLeadingHyphen {l : List Char}
    (h : noAdjacentHyphens l = true) : noAdjacentHyphens (dropLeadingHyphen l) = true := by
  cases l with
  | nil => rfl
  | cons c t =>
    by_cases hc : c = '-'
    · simpa [dropLeadingHyphen, hc] using noAdjacentHyphens_tail h
    · simpa [dropLeadingHyphen, hc] using h

theorem noAdjacentHyphens_dropLast {l : List Char}
    (h : noAdjacentHyphens l = true) : noAdjacentHyphens l.dropLast = true := by
  induction l with
  | nil => rfl
  | cons c t ih =>
    cases t with
    | nil => rfl
    | cons d t' =>
      cases t' with
      | nil => rfl
      | cons e t'' =>
        rw [noAdjacentHyphens_cons_cons] at h
        obtain ⟨h1, h2⟩ := Bool.and_eq_true_iff.mp h
        have htail := ih h2
        rw [List.dropLast_cons₂, List.dropLast_cons₂]
        rw [List.dropLast_cons₂] at htail
        rw [noAdjacentHyphens_cons_cons]
        exact Bool.and_eq_true_iff.mpr ⟨h1, htail⟩

theorem lastNotHyphen_of_ne {l : List Char} (h : l.getLast? ≠ some '-') :
    lastNotHyphen l = true := by
  unfold lastNotHyphen
  cases hg : l.getLast? with
  | none => rfl
  | some c =>
    rw [hg] at h
    simp only [bne_iff_ne, ne_eq]
    intro he; exact h (by rw [he])

theorem lastNotHyphen_dropLast {l : List Char}
    (hadj : noAdjacentHyphens l = true) (hlast : l.getLast? = some '-') :
    lastNotHyphen l.dropLast = true := by
  induction l with
  | nil => rfl
  | cons c t ih =>
    cases t with
    | nil =>
      rfl
    | cons d t' =>
      rw [List.getLast?_cons_cons] at hlast
      have htail := ih (noAdjacentHyphens_tail hadj) hlast
      simp only [List.dropLast_cons₂]
      cases t' with
      | nil =>
        have hd : d = '-' := by simpa using hlast
        subst hd
        rw [noAdjacentHyphens_cons_cons] at hadj
        have h1 := (Bool.and_eq_true_iff.mp hadj).1
        have hc : c ≠ '-' := by simpa using h1
        simp [lastNotHyphen, List.dropLast, hc]
      | cons e t'' =>
        simp only [List.dropLast_cons₂] at htail
        simpa [lastNotHyphen, List.getLast?_cons_cons] using htail

theorem headNotHyphen_dropTrailingHyphen {l : List Char}
    (h : headNotHyphen l = true) : headNotHyphen (dropTrailingHyphen l) = true := by
  unfold dropTrailingHyphen
  by_cases hg : l.getLast? = some '-'
  · simp only [hg, if_true]
    cases l with
    | nil => rfl
    | cons c t =>
      cases t with
      | nil => rfl
      | cons d t' => simpa [List.dropLast_cons₂, headNotHyphen] using h
  · simpa [hg] using h

theorem trimEdgeHyphens_props {l : List Char}
    (hadj : noAdjacentHyphens l = true) (hchars : slugCharsOk l = true) :
    slugCharsOk (trimEdgeHyphens l) = true
    ∧ noAdjacentHyphens (trimEdgeHyphens l) = true
    ∧ headNotHyphen (trimEdgeHyphens l) = true
    ∧ lastNotHyphen (trimEdgeHyphens l) = true := by
  have hadj1 : noAdjacentHyphens (dropLeadingHyphen l) = true :=
    noAdjacentHyphens_dropLeadingHyphen hadj
  have hchars1 : slugCharsOk (dropLeadingHyphen l) = true := by
    refine slugCharsOk_sublist ?_ hchars
    cases l with
    | nil => exact List.Sublist.refl _
    | cons c t =>
      by_cases hc : c = '-'
      · simp only [dropLeadingHyphen, hc, if_true]
        exact (List.sublist_cons_self _ _)
      · simp only [dropLeadingHyphen, hc, if_false]
        exact List.Sublist.refl _
  have hhead1 : headNotHyphen (dropLeadingHyphen l) = true :=
    headNotHyphen_dropLeadingHyphen hadj
  unfold trimEdgeHyphens
  refine ⟨?_, ?_, headNotHyphen_dropTrailingHyphen hhead1, ?_⟩
  · refine slugCharsOk_sublist ?_ hchars1
    unfold dropTrailingHyphen
    by_cases hg : (dropLeadingHyphen l).getLast? = some '-'
    · simp only [hg, if_true]
      exact List.dropLast_sublist _
    · simp only [hg, if_false]
      exact List.Sublist.refl _
  · unfold dropTrailingHyphen
    by_cases hg : (dropLeadingHyphen l).getLast? = some '-'
    · simp only [hg, if_true]
      exact noAdjacentHyphens_dropLast hadj1
    · simpa [hg] using hadj1
  · unfold dropTrailingHyphen
    by_cases hg : (dropLeadingHyphen l).getLast? = some '-'
    · simp only [hg, if_true]
      exact lastNotHyphen_dropLast hadj1 hg
    · simp only [hg, if_false]
      exact lastNotHyphen_of_ne hg

theorem slugCharsOk_head {c : Char} {cs : List Char}
    (h : slugCharsOk (c :: cs) = true) : isSlugChar c = true ∨ c = '-' := by
  have := (List.all_eq_true.mp h) c (List.mem_cons_self c cs)
  simpa using this

theorem slugCharsOk_tail {c : Char} {cs : List Char}
    (h : slugCharsOk (c :: cs) = true) : slugCharsOk cs = true := by
  unfold slugCharsOk at h ⊢
  simp only [List.all_cons, Bool.and_eq_true_iff] at h
  exact h.2

theorem lastNotHyphen_cons_cons (a b : Char) (t : List Char) :
    lastNotHyphen (a :: b :: t) = lastNotHyphen (b :: t) := by
  simp [lastNotHyphen, List.getLast?_cons_cons]

theorem collapseRuns_true_head_slug {e : Char} (t : List Char)
    (h : isSlugChar e = true) :
    collapseRuns true (e :: t) = collapseRuns false (e :: t) := by
  simp [collapseRuns, h]

theorem collapseRuns_cons_slug {c : Char} (cs : List Char) (h : isSlugChar c = true) :
    collapseRuns false (c :: cs) = c :: collapseRuns false cs := by
  simp [collapseRuns, h]

theorem collapseRuns_cons_nonslug {c : Char} (cs : List Char) (h : isSlugChar c = false) :
    collapseRuns false (c :: cs) = '-' :: collapseRuns true cs := by
  simp [collapseRuns, h]

theorem collapseRuns_fixed_aux :
    ∀ (n : Nat) (s : List Char), s.length ≤ n →
      slugCharsOk s = true → noAdjacentHyphens s = true →
      headNotHyphen s = true → lastNotHyphen s = true →
      collapseRuns false s = s := by
  intro n
  induction n with
  | zero =>
    intro s h _ _ _ _
    have : s = [] := List.length_eq_zero.mp (Nat.le_zero.mp h)
    subst this; rfl
  | succ n ih =>
    intro s h hchars hadj hhead hlast
    cases s with
    | nil => rfl
    | cons c cs =>
      have hcne : c ≠ '-' := by simpa [headNotHyphen] using hhead
      have hc : isSlugChar c = true := (slugCharsOk_head hchars).resolve_right hcne
      simp only [List.length_cons] at h
      cases cs with
      | nil => simp [collapseRuns, hc]
      | cons d t =>
        rcases slugCharsOk_head (slugCharsOk_tail hchars) with hd | hd
        · have hrec : collapseRuns false (d :: t) = d :: t := by
            refine ih (d :: t) (by simpa using h) (slugCharsOk_tail hchars)
              (noAdjacentHyphens_tail hadj) ?_ ?_
            · simp [headNotHyphen, isSlugChar_ne_hyphen hd]
            · rw [← lastNotHyphen_cons_cons c]; exact hlast
          rw [collapseRuns_cons_slug _ hc, hrec]
        · subst hd
          cases t with
          | nil =>
            exfalso
            rw [lastNotHyphen_cons_cons] at hlast
            simp [lastNotHyphen] at hlast
          | cons e t' =>
            have hadj2 : noAdjacentHyphens ('-' :: e :: t') = true :=
              noAdjacentHyphens_tail hadj
            have hene : e ≠ '-' := by
              rw [noAdjacentHyphens_cons_cons] at hadj2
              have h1 := (Bool.and_eq_true_iff.mp hadj2).1
              simpa using h1
            have he : isSlugChar e = true :=
              (slugCharsOk_head (slugCharsOk_tail (slugCharsOk_tail hchars))).resolve_right hene
            have hrec : collapseRuns false (e :: t') = e :: t' := by
              refine ih (e :: t') (by simp only [List.length_cons] at h ⊢; omega)
                (slugCharsOk_tail (slugCharsOk_tail hchars))
                (noAdjacentHyphens_tail hadj2) ?_ ?_
              · simp [headNotHyphen, hene]
              · rw [← lastNotHyphen_cons_cons '-', ← lastNotHyphen_cons_cons c]
                exact hlast
            have hhy : isSlugChar '-' = false := by decide
            rw [collapseRuns_cons_slug _ hc, collapseRuns_cons_nonslug _ hhy,
              collapseRuns_true_head_slug t' he, hrec]

theorem asciiToLower_fixed {c : Char} (h : isSlugChar c = true ∨ c = '-') :
    asciiToLower c = c := by
  rcases h with h | h
  · have hp : (97 ≤ c.toNat ∧ c.toNat ≤ 122) ∨ (48 ≤ c.toNat ∧ c.toNat ≤ 57) :=
      of_decide_eq_true (by simpa [isSlugChar] using h)
    unfold asciiToLower
    rw [if_neg]
    omega
  · subst h; decide

theorem map_asciiToLower_fixed {s : List Char} (h : slugCharsOk s = true) :
    s.map asciiToLower = s := by
  have hall := List.all_eq_true.mp h
  rw [List.map_congr_left (fun a ha => asciiToLower_fixed (by simpa using hall a ha))]
  exact List.map_id s

theorem dropLeadingHyphen_of_headNot {s : List Char}
    (h : headNotHyphen s = true) : dropLeadingHyphen s = s := by
  cases s with
  | nil => rfl
  | cons c t =>
    have : c ≠ '-' := by simpa [headNotHyphen] using h
    simp [dropLeadingHyphen, this]

theorem dropTrailingHyphen_of_lastNot {s : List Char}
    (h : lastNotHyphen s = true) : dropTrailingHyphen s = s := by
  unfold dropTrailingHyphen
  rw [if_neg]
  unfold lastNotHyphen at h
  intro hg
  rw [hg] at h
  simp at h

theorem slugify_props (text : String) :
    slugCharsOk (slugify text).data = true
    ∧ noAdjacentHyphens (slugify text).data = true
    ∧ headNotHyphen (slugify text).data = true
    ∧ lastNotHyphen (slugify text).data = true := by
  have hchars := collapseRuns_charsOk false (text.data.map asciiToLower)
  have hadj := (collapseRuns_invariants (text.data.map asciiToLower)).1
  have := trimEdgeHyphens_props hadj hchars
  exact ⟨this.1, this.2.1, this.2.2.1, this.2.2.2⟩

theorem slugify_fixed_of_canon {s : List Char}
    (h1 : slugCharsOk s = true) (h2 : noAdjacentHyphens s = true)
    (h3 : headNotHyphen s = true) (h4 : lastNotHyphen s = true) :
    slugify (String.mk s) = String.mk s := by
  unfold slugify
  show String.mk (trimEdgeHyphens (collapseRuns false (s.map asciiToLower))) = String.mk s
  rw [map_asciiToLower_fixed h1,
    collapseRuns_fixed_aux s.length s le_rfl h1 h2 h3 h4]
  unfold trimEdgeHyphens
  rw [dropLeadingHyphen_of_headNot h3, dropTrailingHyphen_of_lastNot h4]

/-! ### isAbsoluteUrl

The helper tests the url against an anchored, case-insensitive regex:
a letter, then any number of letters, digits, plus, hyphen or dot,
then a colon.  As the colon is outside the repeated class, the greedy
scan with a colon check afterwards matches the regex with
backtracking. -/

/-- A character the scheme may start with: an ASCII letter of either
case (the regex carries the i flag). -/
def isSchemeStart (c : Char) : Bool :=
  decide ((97 ≤ c.toNat ∧ c.toNat ≤ 122) ∨ (65 ≤ c.toNat ∧ c.toNat ≤ 90))

/-- A character of the repeated scheme class: a letter, a digit, a
plus, a hyphen or a dot. -/
def isSchemeChar (c : Char) : Bool :=
  isSchemeStart c
    || decide ((48 ≤ c.toNat ∧ c.toNat ≤ 57) ∨ c.toNat = 43 ∨ c.toNat = 45 ∨ c.toNat = 46)

/-- isAbsoluteUrl of the shared utils module: the url starts with a
scheme-start character, and the first character after the run of
scheme characters is a colon. -/
def isAbsoluteUrl (url : String) : Bool :=
  match url.data with
  | [] => false
  | c :: rest => isSchemeStart c && ((rest.dropWhile isSchemeChar).head? == some ':')

theorem dropWhile_append_all {p : Char → Bool} {l : List Char}
    (h : ∀ x ∈ l, p x = true) (l2 : List Char) :
    (l ++ l2).dropWhile p = l2.dropWhile p := by
  induction l with
  | nil => rfl
  | cons c cs ih =>
    have hc := h c (List.mem_cons_self c cs)
    simp only [List.cons_append, List.dropWhile, hc]
    exact ih (fun x hx => h x (List.mem_cons_of_mem c hx))

theorem isAbsoluteUrl_iff (url : String) :
    isAbsoluteUrl url = true ↔
      ∃ c cs rest, url.data = c :: (cs ++ ':' :: rest)
        ∧ isSchemeStart c = true ∧ ∀ x ∈ cs, isSchemeChar x = true := by
  unfold isAbsoluteUrl
  cases hd : url.data with
  | nil =>
    simp only [Bool.false_eq_true, false_iff]
    rintro ⟨c, cs, rest, he, -, -⟩
    exact List.cons_ne_nil c _ (by rw [← he])
  | cons c rest0 =>
    simp only [Bool.and_eq_true_iff, beq_iff_eq]
    constructor
    · rintro ⟨hstart, hcolon⟩
      cases hdw : rest0.dropWhile isSchemeChar with
      | nil => rw [hdw] at hcolon; simp at hcolon
      | cons x xs =>
        rw [hdw] at hcolon
        simp only [List.head?_cons, Option.some_inj] at hcolon
        subst hcolon
        refine ⟨c, rest0.takeWhile isSchemeChar, xs, ?_, hstart, ?_⟩
        · rw [← hdw, List.takeWhile_append_dropWhile isSchemeChar rest0]
        · exact fun x hx => List.mem_takeWhile_imp hx
    · rintro ⟨c', cs, rest, he, hstart, hcs⟩
      injection he with h1 h2
      subst h1
      refine ⟨hstart, ?_⟩
      rw [h2, dropWhile_append_all hcs]
      have hcol : isSchemeChar ':' = false := by decide
      simp [List.dropWhile, hcol]

/-! ### Supporting facts for the sort claims -/

theorem takeWhile_ne_append {sep : Char} {base : List Char} (h : sep ∉ base)
    (t : List Char) :
    (base ++ sep :: t).takeWhile (fun c => c ≠ sep) = base := by
  induction base with
  | nil => simp [List.takeWhile_cons]
  | cons c base' ih =>
    have hc : c ≠ sep := fun he => h (he ▸ List.mem_cons_self c base')
    have h' : sep ∉ base' := fun hm => h (List.mem_cons_of_mem c hm)
    have hrec := ih h'
    simp only [ne_eq, decide_not] at hrec ⊢
    simp [List.takeWhile_cons, hc, hrec]

theorem dropWhile_ne_append {sep : Char} {base : List Char} (h : sep ∉ base)
    (t : List Char) :
    (base ++ sep :: t).dropWhile (fun c => c ≠ sep) = sep :: t := by
  induction base with
  | nil => simp [List.dropWhile_cons]
  | cons c base' ih =>
    have hc : c ≠ sep := fun he => h (he ▸ List.mem_cons_self c base')
    have h' : sep ∉ base' := fun hm => h (List.mem_cons_of_mem c hm)
    have hrec := ih h'
    simp only [ne_eq, decide_not] at hrec ⊢
    simp [List.dropWhile_cons, hc, hrec]

theorem takeWhile_ne_all {sep : Char} {q : List Char} (h : sep ∉ q) :
    q.takeWhile (fun c => c ≠ sep) = q := by
  induction q with
  | nil => rfl
  | cons c q' ih =>
    have hc : c ≠ sep := fun he => h (he ▸ List.mem_cons_self c q')
    have h' : sep ∉ q' := fun hm => h (List.mem_cons_of_mem c hm)
    have hrec := ih h'
    simp only [List.takeWhile_cons, ne_eq, hc, decide_not, decide_eq_true_eq] at hrec ⊢
    simp [hc, hrec]

theorem splitFirst2_two {base q t : List Char} (hb : '?' ∉ base) (hq : '?' ∉ q) :
    splitFirst2 '?' (base ++ '?' :: (q ++ '?' :: t)) = (base, q) := by
  unfold splitFirst2
  rw [takeWhile_ne_append hb, dropWhile_ne_append hb]
  simp only
  rw [takeWhile_ne_append hq]

theorem splitFirst2_one {base q : List Char} (hb : '?' ∉ base) (hq : '?' ∉ q) :
    splitFirst2 '?' (base ++ '?' :: q) = (base, q) := by
  unfold splitFirst2
  rw [takeWhile_ne_append hb, dropWhile_ne_append hb]
  simp only
  rw [takeWhile_ne_all hq]

theorem sortPolicyB_stable (L : List Project) (s : Nat) :
    (sortPolicyB L).filter (fun x => x.stars = s) = L.filter (fun x => x.stars = s) := by
  have hpw : (L.filter (fun x => x.stars = s)).Pairwise policyBRel := by
    refine List.pairwise_of_forall_mem_list ?_
    intro a ha b hb
    have ha' : a.stars = s := by simpa using List.of_mem_filter ha
    have hb' : b.stars = s := by simpa using List.of_mem_filter hb
    unfold policyBRel cmpPolicyB
    omega
  have hsub : List.Sublist (L.filter (fun x => x.stars = s)) (sortPolicyB L) :=
    List.sublist_insertionSort hpw (List.filter_sublist L)
  have hsub2 : List.Sublist
      ((L.filter (fun x => x.stars = s)).filter (fun x => x.stars = s))
      ((sortPolicyB L).filter (fun x => x.stars = s)) :=
    List.Sublist.filter _ hsub
  have hff : (L.filter (fun x => x.stars = s)).filter (fun x => x.stars = s)
      = L.filter (fun x => x.stars = s) := by
    simp [List.filter_filter]
  rw [hff] at hsub2
  have hperm : ((sortPolicyB L).filter (fun x => x.stars = s)).Perm
      (L.filter (fun x => x.stars = s)) :=
    (List.perm_insertionSort policyBRel L).filter _
  exact (List.Sublist.eq_of_length hsub2 hperm.length_eq.symm).symm

/-- The record named B of the end-to-end example of section 8 of the
spec, with the fields the example leaves open at their empty
defaults. -/
def exB : Project := ⟨"B", "", false, none, none, 1, 0, none, ""⟩

/-- The record named A of the end-to-end example: archived, five
stars. -/
def exA : Project := ⟨"A", "", true, none, none, 5, 0, none, ""⟩

/-- The record named C of the end-to-end example: live, three
stars. -/
def exC : Project := ⟨"C", "", false, none, none, 3, 0, none, ""⟩

/-! ### The claims -/

/-- C1: for every list of Project records produced by buffering the
Loader sequence, the Policy A sort orders the list so that every
non-archived record precedes every archived one and each of the two
partitions is alphabetical by name (case-sensitive comparison), and
the end-to-end example with names B, A, C sorts to B, C, A. -/
theorem policyA_sort_correct :
    (∀ fakes : List Project,
        (sortPolicyA (bufferIterable (loadProjects fakes))).Pairwise policyASpecLe
        ∧ (sortPolicyA (bufferIterable (loadProjects fakes))).Perm fakes)
    ∧ sortPolicyA (bufferIterable (loadProjects [exB, exA, exC])) = [exB, exC, exA] := by
  constructor
  · intro fakes
    rw [bufferIterable_loadProjects]
    constructor
    · exact (List.sorted_insertionSort policyARel fakes).imp
        (fun h => (policyASpecLe_iff _ _).mpr h)
    · exact List.perm_insertionSort policyARel fakes
  · decide

/-- C2: for every Project list, the Policy B sort orders the list by
descending star count (it permutes the input), and it is stable: the
records holding any fixed star count appear in the output in their
input order. -/
theorem policyB_sort_correct :
    ∀ L : List Project,
      (sortPolicyB L).Pairwise (fun a b => b.stars ≤ a.stars)
      ∧ (sortPolicyB L).Perm L
      ∧ ∀ s : Nat, (sortPolicyB L).filter (fun x => x.stars = s)
          = L.filter (fun x => x.stars = s) := by
  intro L
  refine ⟨?_, List.perm_insertionSort policyBRel L, fun s => sortPolicyB_stable L s⟩
  refine (List.sorted_insertionSort policyBRel L).imp ?_
  intro a b h
  unfold policyBRel cmpPolicyB at h
  omega

/-- C3: deleteUndefined removes from every record exactly the keys
bound to the absent value: afterwards no record holds an absent-valued
key, and a binding survives exactly when its value was defined, so
explicit falsy values such as zero, false and the empty string are
kept. -/
theorem deleteUndefined_correct :
    ∀ L : List JsRecord,
      ((deleteUndefined L).all
          (fun rec => rec.all (fun kv => kv.2 ≠ JsValue.undef)) = true)
      ∧ List.Forall₂
          (fun rec rec' => ∀ k v,
            ((k, v) ∈ rec' ↔ ((k, v) ∈ rec ∧ v ≠ JsValue.undef)))
          L (deleteUndefined L)
      ∧ deleteUndefinedRecord
          [("a", JsValue.vNat 0), ("b", JsValue.vBool false),
           ("c", JsValue.vStr ""), ("d", JsValue.undef)]
          = [("a", JsValue.vNat 0), ("b", JsValue.vBool false), ("c", JsValue.vStr "")] := by
  intro L
  refine ⟨?_, ?_, by decide⟩
  · rw [List.all_eq_true]
    rintro rec hrec
    rw [List.all_eq_true]
    intro kv hkv
    rw [deleteUndefined, List.mem_map] at hrec
    obtain ⟨rec0, h0, rfl⟩ := hrec
    have := List.of_mem_filter hkv
    simpa using this
  · rw [deleteUndefined]
    induction L with
    | nil => exact List.Forall₂.nil
    | cons rec L ih =>
      refine List.Forall₂.cons ?_ ih
      intro k v
      simp [deleteUndefinedRecord, List.mem_filter]

/-- C4: every invocation of loadProjects denotes the finite trace that
yields exactly the records of the fixture list it iterates over, in
order and unfiltered, with one cooperative suspension point before
each yielded item; the trace is a pure function of the fixture list,
so every consumption is the same fresh full pass. -/
theorem loadProjects_correct :
    ∀ fakes : List Project,
      bufferIterable (loadProjects fakes) = fakes
      ∧ suspBeforeEachItem (loadProjects fakes) = true :=
  fun fakes => ⟨bufferIterable_loadProjects fakes, suspBeforeEachItem_loadProjects fakes⟩

/-- C5: formatUrlWithQuery returns the base before the first question
mark, a question mark and the serialized final query, in which every
params key is bound to its params value (set overwrites or appends)
while every other key keeps the value it had in the original query;
the worked example rewrites q and keeps x. -/
theorem formatUrlWithQuery_correct :
    (∀ (url : String) (params : List (String × String)),
        formatUrlWithQuery url params
          = String.mk ((splitFirst2 '?' url.data).1
              ++ '?' :: serializeQuery (queryPairsAfter url params)))
    ∧ (∀ (url : String) (params : List (String × String)) (k v : String),
        (params.map Prod.fst).Nodup → (k, v) ∈ params →
        lookupKey k.data (queryPairsAfter url params) = some v.data)
    ∧ (∀ (url : String) (params : List (String × String)) (k : List Char),
        (∀ kv ∈ params, kv.1.data ≠ k) →
        lookupKey k (queryPairsAfter url params)
          = lookupKey k (parseQuery (splitFirst2 '?' url.data).2))
    ∧ formatUrlWithQuery "/search?q=a&x=1" [("q", "b")] = "/search?q=b&x=1" := by
  refine ⟨fun url params => rfl, ?_, ?_, by decide⟩
  · intro url params k v hnd hmem
    refine lookupKey_setAll_mem _ ?_ ?_ _
    · have : (params.map (fun kv => (kv.1.data, kv.2.data))).map Prod.fst
          = (params.map Prod.fst).map String.data := by
        simp [List.map_map, Function.comp]
      rw [this]
      exact hnd.map (fun a b hab => String.ext hab)
    · exact List.mem_map_of_mem (fun kv => (kv.1.data, kv.2.data)) hmem
  · intro url params k hk
    refine lookupKey_setAll_not_mem _ ?_ _
    intro kv hkv
    rw [List.mem_map] at hkv
    obtain ⟨kv0, h0, rfl⟩ := hkv
    exact hk kv0 h0

/-- C6: slugify lowercases the text, turns every maximal run of
characters outside the class of lowercase letters and digits into one
hyphen, and trims a leading and a trailing hyphen; the two worked
examples hold. -/
theorem slugify_correct :
    (∀ text : String,
        slugify text
          = String.mk (trimEdgeHyphens (specReplaceRuns (text.data.map asciiToLower))))
    ∧ slugify "Hello, World!" = "hello-world"
    ∧ slugify "  --Leading/Trailing--  " = "leading-trailing" := by
  refine ⟨?_, by decide, by decide⟩
  intro text
  unfold slugify
  rw [collapseRuns_eq_spec]

/-- C7: isAbsoluteUrl accepts a string exactly when it starts with a
URI scheme: a letter, then scheme characters, then a colon, matched
case-insensitively; the two worked examples hold. -/
theorem isAbsoluteUrl_correct :
    (∀ url : String, isAbsoluteUrl url = true ↔
        ∃ c cs rest, url.data = c :: (cs ++ ':' :: rest)
          ∧ isSchemeStart c = true ∧ ∀ x ∈ cs, isSchemeChar x = true)
    ∧ isAbsoluteUrl "https://example.com" = true
    ∧ isAbsoluteUrl "/projects" = false :=
  ⟨isAbsoluteUrl_iff, by decide, by decide⟩

/-- C8: the Policy A sort is idempotent: a list already in the Policy
A order (non-archived first, names ascending within each partition)
is returned unchanged, element for element. -/
theorem policyA_sort_idempotent (L : List Project) (h : L.Pairwise policyASpecLe) :
    sortPolicyA L = L := by
  have hs : L.Pairwise policyARel := h.imp (fun hab => (policyASpecLe_iff _ _).mp hab)
  exact List.Sorted.insertionSort_eq hs

/-- The idempotence theorem applied at the sorted concrete list B, C,
A of the end-to-end example. -/
theorem policyA_sort_idempotent_witness :
    ([exB, exC, exA].Pairwise policyASpecLe)
      ∧ sortPolicyA [exB, exC, exA] = [exB, exC, exA] :=
  ⟨by decide, policyA_sort_idempotent [exB, exC, exA] (by decide)⟩

/-- C9: when the url holds two question marks, the split with limit
two keeps only the text strictly between them as the query: everything
after the second question mark is discarded from the result. -/
theorem formatUrlWithQuery_truncates (base q rest : List Char)
    (params : List (String × String))
    (hb : '?' ∉ base) (hq : '?' ∉ q) :
    formatUrlWithQuery (String.mk (base ++ '?' :: (q ++ '?' :: rest))) params
      = formatUrlWithQuery (String.mk (base ++ '?' :: q)) params := by
  unfold formatUrlWithQuery queryPairsAfter
  rw [show (String.mk (base ++ '?' :: (q ++ '?' :: rest))).data
      = base ++ '?' :: (q ++ '?' :: rest) from rfl]
  rw [show (String.mk (base ++ '?' :: q)).data = base ++ '?' :: q from rfl]
  rw [splitFirst2_two hb hq, splitFirst2_one hb hq]

/-- The truncation theorem applied at a concrete url with two question
marks. -/
theorem formatUrlWithQuery_truncates_witness :
    ('?' ∉ ['/', 'a']) ∧ ('?' ∉ ['x', '=', '1']) ∧
      formatUrlWithQuery (String.mk (['/', 'a'] ++ '?' :: (['x', '=', '1'] ++ '?' :: ['y']))) []
        = formatUrlWithQuery (String.mk (['/', 'a'] ++ '?' :: ['x', '=', '1'])) [] :=
  ⟨by decide, by decide,
    formatUrlWithQuery_truncates ['/', 'a'] ['x', '=', '1'] ['y'] [] (by decide) (by decide)⟩

/-- C10: the output of slugify is canonical: only lowercase letters,
digits and hyphens, no two adjacent hyphens, no hyphen at either end,
and slugify is idempotent on it. -/
theorem slugify_canonical (text : String) :
    slugCharsOk (slugify text).data = true
    ∧ noAdjacentHyphens (slugify text).data = true
    ∧ headNotHyphen (slugify text).data = true
    ∧ lastNotHyphen (slugify text).data = true
    ∧ slugify (slugify text) = slugify text := by
  obtain ⟨h1, h2, h3, h4⟩ := slugify_props text
  exact ⟨h1, h2, h3, h4, slugify_fixed_of_canon h1 h2 h3 h4⟩

end CalebMe
